import Mathlib

/-!
Shallow embedding of the call-site extractor of src/find_toasts.py.

The core of the program scans the text of one file for occurrences of
the pattern on source line 6: the literal identifier, an optional dotted
member drawn from a fixed list of variant names, optional whitespace,
an opening parenthesis, and a shortest run of arbitrary characters
closed by the first closing parenthesis.  For each match the program
records a line number (source line 30), a variant tag (source line 32)
and a summary of the argument text recovered by a balanced-parenthesis
scan over the original text starting at the argument-start offset
(source lines 48 to 65).  Directory walking, file reading and printing
are glue outside the modelled core.  Whitespace is modelled as the six
ASCII whitespace characters, which covers every input considered here.
-/

namespace FindToasts

/-- The six ASCII whitespace characters recognised by the scan, used
both for the whitespace run before the opening parenthesis and for the
split during normalisation. -/
def isSpaceChar (c : Char) : Bool :=
  c == ' ' || c == '\t' || c == '\n' || c == '\r' ||
    c == Char.ofNat 11 || c == Char.ofNat 12

/-- The variant names of group 1 of the pattern, in alternation order. -/
def variantNames : List String :=
  ["success", "error", "info", "warning", "loading", "custom", "message"]

/-- Matches a run of whitespace followed by an opening parenthesis at
the head of the list; returns how many characters were consumed, the
parenthesis included. -/
def matchSpacesParen : List Char → Option Nat
  | [] => none
  | c :: rest =>
    if c = '(' then some 1
    else if isSpaceChar c then (matchSpacesParen rest).map (fun k => k + 1)
    else none

/-- The bare-call branch of the pattern: no dotted member, just the
whitespace run and the opening parenthesis. -/
def tryBare (s : List Char) : Option (Option String × Nat) :=
  (matchSpacesParen s).map (fun k => ((none : Option String), k))

/-- Matches the optional dotted-member group followed by whitespace and
the opening parenthesis, starting just after the identifier.  Returns
group 1 together with the offset of the argument start relative to the
end of the identifier.  The fallback to the bare branch mirrors the
backtracking of the optional group when the dotted branch fails; no
variant name is a proper head of another, so at most one alternative can
apply at a given position. -/
def matchTail (s : List Char) : Option (Option String × Nat) :=
  match s with
  | '.' :: rest =>
    match variantNames.find? (fun v => v.toList.isPrefixOf rest) with
    | some v =>
      match matchSpacesParen (rest.drop v.length) with
      | some k => some (some v, 1 + v.length + k)
      | none => tryBare s
    | none => tryBare s
  | _ => tryBare s

/-- Index of the first closing parenthesis in the list, if any.  The
pattern requires such a character for a match to exist at all: its non
greedy final group extends exactly up to the first one. -/
def firstRParen : List Char → Option Nat
  | [] => none
  | c :: rest =>
    if c = ')' then some 0 else (firstRParen rest).map (fun j => j + 1)

/-- One candidate produced by the pattern scan, with absolute offsets
into the text: the match start, the argument-start offset (just after
the opening parenthesis, the start of group 2) and the offset just after
the first closing parenthesis, where the next scan resumes. -/
structure ToastMatch where
  pos : Nat
  variant : Option String
  argStart : Nat
  matchEnd : Nat
deriving DecidableEq

/-- Attempts the whole pattern at the head of the suffix.  On success
returns group 1, the offset of the argument start and the length of the
whole match, both relative to the head. -/
def matchToastAt (s : List Char) : Option (Option String × Nat × Nat) :=
  if ("toast".toList).isPrefixOf s then
    match matchTail (s.drop 5) with
    | some (v, k) =>
      match firstRParen (s.drop (5 + k)) with
      | some j => some (v, 5 + k, 5 + k + j + 1)
      | none => none
    | none => none
  else none

/-- The scanning loop of finditer: leftmost matches first, the scan
resuming just after the end of each match.  The fuel argument starts at
the length of the text and the remaining text shrinks by at least one
character per step, so the fuel never runs out before the text does;
making the recursion structural on the fuel keeps every definition
computable by evaluation. -/
def findMatchesFuel : Nat → List Char → Nat → List ToastMatch
  | 0, _, _ => []
  | _ + 1, [], _ => []
  | fuel + 1, c :: rest, i =>
    match matchToastAt (c :: rest) with
    | some (v, argOff, len) =>
      ⟨i, v, i + argOff, i + len⟩ ::
        findMatchesFuel fuel (rest.drop (len - 1)) (i + len)
    | none => findMatchesFuel fuel rest (i + 1)

/-- All candidates of one text, leftmost first. -/
def findMatches (text : List Char) : List ToastMatch :=
  findMatchesFuel text.length text 0

/-- The balanced scan of source lines 48 to 60: the balance starts at
zero, an opening parenthesis increments it, a closing one decrements it,
and the scan stops just before the character that would drive the
balance negative; every earlier character is kept. -/
def scanArgs : List Char → Int → List Char
  | [], _ => []
  | c :: rest, balance =>
    let balance2 := if c = '(' then balance + 1
      else if c = ')' then balance - 1 else balance
    if balance2 < 0 then [] else c :: scanArgs rest balance2

/-- Argument extraction starting from the argument-start offset. -/
def extractArgs (s : List Char) : List Char := scanArgs s 0

/-- Splits into maximal runs of non-whitespace characters, the split of
source line 63; the accumulator holds the current word reversed. -/
def wordsAux : List Char → List Char → List (List Char)
  | [], acc => if acc.isEmpty then [] else [acc.reverse]
  | c :: rest, acc =>
    if isSpaceChar c then
      if acc.isEmpty then wordsAux rest []
      else acc.reverse :: wordsAux rest []
    else wordsAux rest (c :: acc)

def splitWords (s : List Char) : List (List Char) := wordsAux s []

/-- Joins words with single spaces, the join of source line 63. -/
def joinWords : List (List Char) → List Char
  | [] => []
  | [w] => w
  | w :: ws => w ++ ' ' :: joinWords ws

/-- Whitespace normalisation of source line 63. -/
def normalizeWs (s : List Char) : List Char := joinWords (splitWords s)

/-- Normalisation followed by the truncation of source lines 64 and 65. -/
def summarize (s : List Char) : List Char :=
  let n := normalizeWs s
  if n.length > 100 then n.take 100 ++ "...".toList else n

/-- One emitted record; the file path field is owned by the enumeration
glue and is not part of the modelled core.  The first string literal
argument computed on source lines 44 and 45 is dead code there, never
stored in the record, and is omitted. -/
structure Usage where
  line : Nat
  type : String
  args : String
deriving DecidableEq

/-- Source line 32: group 1 when present, the default tag otherwise. -/
def variantName : Option String → String
  | some v => v
  | none => "default"

/-- Builds the record of one candidate from the full text, as on source
lines 28 to 72: the line number counts newlines before the match start
in the original text, and the argument summary is the normalised and
truncated balanced scan starting at the argument-start offset. -/
def mkUsage (content : List Char) (m : ToastMatch) : Usage :=
  ⟨(content.take m.pos).count '\n' + 1,
    variantName m.variant,
    ⟨summarize (extractArgs (content.drop m.argStart))⟩⟩

/-- The per-file core of find_toast_usages: one record per candidate. -/
def find_toast_usages (content : List Char) : List Usage :=
  (findMatches content).map (mkUsage content)

/-- Written from the words of the spec, for comparison with scanArgs:
the scan stops at the first closing parenthesis seen while the depth
counter is at zero, and every earlier character is kept, the counter
being incremented at opening and decremented at closing parentheses. -/
def specScanArgs : List Char → Int → List Char
  | [], _ => []
  | c :: rest, depth =>
    if c = ')' ∧ depth = 0 then []
    else c :: specScanArgs rest
      (if c = '(' then depth + 1 else if c = ')' then depth - 1 else depth)

/-- Spec-side argument extraction, starting at depth zero. -/
def specExtractArgs (s : List Char) : List Char := specScanArgs s 0

theorem scanArgs_eq_specScanArgs (s : List Char) :
    ∀ d : Int, 0 ≤ d → scanArgs s d = specScanArgs s d := by
  induction s with
  | nil => intro d _; rfl
  | cons c rest ih =>
    intro d hd
    simp only [scanArgs, specScanArgs]
    by_cases hc1 : c = '('
    · have h1 : ¬ (d + 1 < 0) := by omega
      simp [hc1, h1, ih (d + 1) (by omega)]
    · by_cases hc2 : c = ')'
      · by_cases hd0 : d = 0
        · simp [hc1, hc2, hd0]
        · have h1 : ¬ (d - 1 < 0) := by omega
          simp [hc1, hc2, hd0, h1, ih (d - 1) (by omega)]
      · have h1 : ¬ (d < 0) := by omega
        simp [hc1, hc2, h1, ih d hd]

theorem scanArgs_prefix_of_input (s : List Char) :
    ∀ d : Int, scanArgs s d <+: s := by
  induction s with
  | nil => intro d; simp [scanArgs]
  | cons c rest ih =>
    intro d
    simp only [scanArgs]
    generalize (if c = '(' then d + 1 else if c = ')' then d - 1 else d) = b2
    by_cases hneg : b2 < 0
    · simp [hneg]
    · simp only [if_neg hneg]
      obtain ⟨t, ht⟩ := ih b2
      exact ⟨t, by rw [List.cons_append, ht]⟩

/-- C1: for every text suffix starting at the argument-start offset,
the balanced scan of the code extracts exactly the characters up to, but
not including, the first closing parenthesis encountered while the
running depth counter, initialised to zero, incremented at opening and
decremented at closing parentheses, is at depth zero; nested balanced
parentheses are therefore fully included, and the extracted text is
literally a leading segment of the text. -/
theorem extractArgs_eq_spec (s : List Char) :
    extractArgs s = specExtractArgs s ∧ extractArgs s <+: s :=
  ⟨scanArgs_eq_specScanArgs s 0 le_rfl, scanArgs_prefix_of_input s 0⟩

/-- C2 counterexample: on the balanced-parenthesis example input the
extraction does not return the whole inner content up to the final
matching closer. -/
theorem extract_balanced_example_ne_claimed :
    extractArgs ("toast(foo(bar(1,2)), \"x)y\")".toList.drop 6)
      ≠ "foo(bar(1,2)), \"x)y\"".toList := by decide

/-- C2 amended: on the balanced-parenthesis example input the extraction
keeps the nested balanced group foo(bar(1,2)) whole instead of stopping
at the first closing parenthesis inside it, but it stops at the closing
parenthesis inside the string literal, which is seen at depth zero
because the scan does not lex string literals; the extracted args text
is foo(bar(1,2)), \"x and the single emitted record carries it. -/
theorem extract_balanced_example_stops_in_string :
    extractArgs ("toast(foo(bar(1,2)), \"x)y\")".toList.drop 6)
        = "foo(bar(1,2)), \"x".toList ∧
      find_toast_usages "toast(foo(bar(1,2)), \"x)y\")".toList
        = [⟨1, "default", "foo(bar(1,2)), \"x"⟩] :=
  ⟨by decide, by decide⟩

theorem firstRParen_eq_none_of_not_mem (s : List Char) (h : ')' ∉ s) :
    firstRParen s = none := by
  induction s with
  | nil => rfl
  | cons c rest ih =>
    simp only [List.mem_cons, not_or] at h
    have hc : ¬ (c = ')') := fun hh => h.1 hh.symm
    simp [firstRParen, hc, ih h.2]

theorem matchToastAt_eq_none_of_no_rparen (s : List Char) (h : ')' ∉ s) :
    matchToastAt s = none := by
  rw [matchToastAt]
  by_cases hp : ("toast".toList).isPrefixOf s
  · simp only [hp, if_true]
    cases hmt : matchTail (s.drop 5) with
    | none => rfl
    | some r =>
      obtain ⟨v, k⟩ := r
      have hdrop : ')' ∉ s.drop (5 + k) :=
        fun hmem => h ((List.drop_subset _ _) hmem)
      simp [firstRParen_eq_none_of_not_mem _ hdrop]
  · rw [if_neg hp]

theorem findMatchesFuel_eq_nil_of_no_rparen (fuel : Nat) :
    ∀ (s : List Char) (i : Nat), ')' ∉ s → findMatchesFuel fuel s i = [] := by
  induction fuel with
  | zero => intro s i _; rfl
  | succ fuel ih =>
    intro s i h
    cases s with
    | nil => rfl
    | cons c rest =>
      rw [findMatchesFuel, matchToastAt_eq_none_of_no_rparen _ h]
      exact ih rest (i + 1) (fun hm => h (List.mem_cons_of_mem c hm))

/-- C3 counterexample: in this text the identifier followed by an
opening parenthesis occurs and the depth counter never goes negative
before the text ends, the scan consuming the whole remainder, yet no
record is emitted, because candidate detection needs a closing
parenthesis somewhere after the opening one. -/
theorem truncated_candidate_without_rparen :
    ("toast(".toList <+: "toast(abc".toList) ∧
      extractArgs ("toast(abc".toList.drop 6) = "toast(abc".toList.drop 6 ∧
      find_toast_usages "toast(abc".toList = [] :=
  ⟨⟨"abc".toList, by decide⟩, by decide, by decide⟩

/-- C3 amended: the partial buffer scanned up to end of text produces a
record only when candidate detection succeeds, which requires at least
one closing parenthesis after the opening one; when the text holds no
closing parenthesis at all, no candidate is detected and no record is
emitted; when a candidate is detected and the text ends before the
counter goes negative, the record is emitted with the partial buffer,
as in the second conjunct, and the situation is not an error. -/
theorem partial_buffer_needs_detected_candidate :
    (∀ text : List Char, ')' ∉ text → find_toast_usages text = []) ∧
      find_toast_usages "toast(foo(1)".toList = [⟨1, "default", "foo(1)"⟩] :=
  ⟨fun text h => by
      rw [find_toast_usages, findMatches,
        findMatchesFuel_eq_nil_of_no_rparen _ _ _ h]
      rfl,
    by decide⟩

theorem partial_buffer_needs_detected_candidate_witness :
    find_toast_usages "toast(xyz".toList = [] :=
  partial_buffer_needs_detected_candidate.1 "toast(xyz".toList (by decide)

/-- C9: the identifier is matched as a bare substring with no word
boundary check: a text where toast occurs only as a proper suffix of the
longer identifier showtoast still yields a record, with the default
variant. -/
theorem substring_match_no_word_boundary :
    find_toast_usages "showtoast(\"x\")".toList
      = [⟨1, "default", "\"x\""⟩] := by decide

theorem findMatchesFuel_pos_le (fuel : Nat) :
    ∀ (s : List Char) (i : Nat) (m : ToastMatch),
      m ∈ findMatchesFuel fuel s i → i ≤ m.pos := by
  induction fuel with
  | zero => intro s i m hm; simp [findMatchesFuel] at hm
  | succ fuel ih =>
    intro s i m hm
    cases s with
    | nil => simp [findMatchesFuel] at hm
    | cons c rest =>
      rw [findMatchesFuel] at hm
      cases hAt : matchToastAt (c :: rest) with
      | none =>
        rw [hAt] at hm
        exact le_trans (Nat.le_succ i) (ih rest (i + 1) m hm)
      | some r =>
        obtain ⟨v, argOff, len⟩ := r
        rw [hAt] at hm
        rcases List.mem_cons.mp hm with h | h
        · subst h; exact le_rfl
        · exact le_trans (Nat.le_add_right i len) (ih _ _ m h)

theorem findMatchesFuel_chain (fuel : Nat) :
    ∀ (s : List Char) (i : Nat),
      List.Chain' (fun a b => a.matchEnd ≤ b.pos) (findMatchesFuel fuel s i) := by
  induction fuel with
  | zero => intro s i; simp [findMatchesFuel]
  | succ fuel ih =>
    intro s i
    cases s with
    | nil => simp [findMatchesFuel]
    | cons c rest =>
      rw [findMatchesFuel]
      cases hAt : matchToastAt (c :: rest) with
      | none => exact ih rest (i + 1)
      | some r =>
        obtain ⟨v, argOff, len⟩ := r
        refine List.chain'_cons'.mpr ⟨?_, ih _ _⟩
        intro b hb
        exact findMatchesFuel_pos_le fuel _ _ b (List.mem_of_mem_head? hb)

/-- C10: candidate matching is non overlapping: along the match list of
any text, each candidate starts no earlier than the end of the previous
matched span, which runs through the first closing parenthesis after the
opening one; and the nested example yields exactly one record, whose
args text is the whole inner call. -/
theorem matches_non_overlapping :
    (∀ text : List Char,
        List.Chain' (fun a b => a.matchEnd ≤ b.pos) (findMatches text)) ∧
      find_toast_usages "toast(toast(\"a\"))".toList
        = [⟨1, "default", "toast(\"a\")"⟩] :=
  ⟨fun text => findMatchesFuel_chain text.length text 0, by decide⟩

/-- C4: every emitted record comes from a candidate, its line number is
one plus the number of newline characters of the original text strictly
before the candidate's start offset, and is therefore at least one. -/
theorem line_number_correct (text : List Char) (u : Usage)
    (hu : u ∈ find_toast_usages text) :
    (∃ m ∈ findMatches text, u = mkUsage text m ∧
        u.line = (text.take m.pos).count '\n' + 1) ∧ 1 ≤ u.line := by
  obtain ⟨m, hm, hmk⟩ := List.mem_map.mp hu
  refine ⟨⟨m, hm, hmk.symm, ?_⟩, ?_⟩
  · rw [← hmk]; rfl
  · rw [← hmk]; exact Nat.succ_le_succ (Nat.zero_le _)

theorem line_number_correct_witness :
    (∃ m ∈ findMatches "toast(1)".toList,
        (⟨1, "default", "1"⟩ : Usage) = mkUsage "toast(1)".toList m ∧
          (⟨1, "default", "1"⟩ : Usage).line
            = ("toast(1)".toList.take m.pos).count '\n' + 1) ∧
      1 ≤ (⟨1, "default", "1"⟩ : Usage).line :=
  line_number_correct "toast(1)".toList ⟨1, "default", "1"⟩ (by decide)

/-- The closed set of the claim: the default tag and the seven dotted
member names. -/
def recognizedVariants : List String := "default" :: variantNames

theorem tryBare_variant (s : List Char) (v : String) (k : Nat) :
    tryBare s ≠ some (some v, k) := by
  rw [tryBare]
  cases matchSpacesParen s with
  | none => simp
  | some n => simp

theorem matchTail_mem_variantNames (s : List Char) (v : String) (k : Nat)
    (h : matchTail s = some (some v, k)) : v ∈ variantNames := by
  rw [matchTail.eq_def] at h
  split at h
  · rename_i rest
    split at h
    · rename_i w hf
      split at h
      · rename_i n hsp
        simp only [Option.some.injEq, Prod.mk.injEq] at h
        obtain ⟨hv, -⟩ := h
        exact hv ▸ List.mem_of_find?_eq_some hf
      · exact absurd h (tryBare_variant _ _ _)
    · exact absurd h (tryBare_variant _ _ _)
  · exact absurd h (tryBare_variant _ _ _)

theorem matchToastAt_variant (s : List Char) (v : String) (a e : Nat)
    (h : matchToastAt s = some (some v, a, e)) : v ∈ variantNames := by
  rw [matchToastAt] at h
  by_cases hp : ("toast".toList).isPrefixOf s
  · rw [if_pos hp] at h
    split at h
    · rename_i v2 k hmt
      split at h
      · rename_i j hfr
        simp only [Option.some.injEq, Prod.mk.injEq] at h
        obtain ⟨h1, -⟩ := h
        cases v2 with
        | none => simp at h1
        | some w =>
          obtain rfl : w = v := Option.some.inj h1
          exact matchTail_mem_variantNames _ _ _ hmt
      · cases h
    · cases h
  · rw [if_neg hp] at h; cases h

theorem findMatchesFuel_variant_mem (fuel : Nat) :
    ∀ (s : List Char) (i : Nat) (m : ToastMatch),
      m ∈ findMatchesFuel fuel s i →
        variantName m.variant ∈ recognizedVariants := by
  induction fuel with
  | zero => intro s i m hm; simp [findMatchesFuel] at hm
  | succ fuel ih =>
    intro s i m hm
    cases s with
    | nil => simp [findMatchesFuel] at hm
    | cons c rest =>
      rw [findMatchesFuel] at hm
      cases hAt : matchToastAt (c :: rest) with
      | none => rw [hAt] at hm; exact ih _ _ _ hm
      | some r =>
        obtain ⟨v, argOff, len⟩ := r
        rw [hAt] at hm
        rcases List.mem_cons.mp hm with h | h
        · subst h
          cases v with
          | none => simp [variantName, recognizedVariants]
          | some w =>
            have hw : w ∈ variantNames := matchToastAt_variant _ _ _ _ hAt
            exact List.mem_cons_of_mem _ hw
        · exact ih _ _ _ h

/-- C5: a dotted success call yields variant success, a bare call yields
variant default, an unrecognised dotted member yields no record at all,
and every emitted record's variant lies in the closed set of the default
tag and the seven member names. -/
theorem variant_classification :
    (∀ (text : List Char) (u : Usage), u ∈ find_toast_usages text →
        u.type ∈ recognizedVariants) ∧
      find_toast_usages "toast.success(\"Saved\")".toList
          = [⟨1, "success", "\"Saved\""⟩] ∧
      find_toast_usages "toast(\"Saved\")".toList
          = [⟨1, "default", "\"Saved\""⟩] ∧
      find_toast_usages "toast.unknownMember(\"x\")".toList = [] := by
  refine ⟨?_, by decide, by decide, by decide⟩
  intro text u hu
  obtain ⟨m, hm, hmk⟩ := List.mem_map.mp hu
  rw [← hmk]
  exact findMatchesFuel_variant_mem _ _ _ _ hm

theorem variant_classification_witness :
    (⟨1, "default", "1"⟩ : Usage).type ∈ recognizedVariants :=
  variant_classification.1 "toast(1)".toList ⟨1, "default", "1"⟩ (by decide)

/-- C8: the extractor is total: the per-file core is a function defined
on every text, every candidate yields exactly one record, every record
arises from a candidate, and malformed or truncated inputs degrade to an
empty or partial result instead of failing. -/
theorem extractor_total :
    (∀ text : List Char,
        (find_toast_usages text).length = (findMatches text).length) ∧
      (∀ (text : List Char) (u : Usage), u ∈ find_toast_usages text →
          ∃ m ∈ findMatches text, u = mkUsage text m) ∧
      find_toast_usages "toast(\"unterminated".toList = [] ∧
      find_toast_usages "toast((()".toList = [⟨1, "default", "(()"⟩] := by
  refine ⟨?_, ?_, by decide, by decide⟩
  · intro text
    exact List.length_map _ _
  · intro text u hu
    obtain ⟨m, hm, hmk⟩ := List.mem_map.mp hu
    exact ⟨m, hm, hmk.symm⟩

theorem extractor_total_witness :
    ∃ m ∈ findMatches "toast(1)".toList,
      (⟨1, "default", "1"⟩ : Usage) = mkUsage "toast(1)".toList m :=
  extractor_total.2.1 "toast(1)".toList ⟨1, "default", "1"⟩ (by decide)

theorem summarize_length_le (s : List Char) : (summarize s).length ≤ 103 := by
  simp only [summarize]
  by_cases h : (normalizeWs s).length > 100
  · rw [if_pos h, List.length_append, List.length_take]
    have h3 : ("...".toList).length = 3 := rfl
    rw [h3]
    omega
  · rw [if_neg h]
    omega

theorem summarize_eq_of_short (s : List Char)
    (h : (normalizeWs s).length ≤ 100) : summarize s = normalizeWs s := by
  simp only [summarize]
  rw [if_neg (by omega)]

theorem summarize_fixed_of_normalized (s : List Char)
    (h1 : normalizeWs s = s) (h2 : s.length ≤ 100) : summarize s = s := by
  rw [summarize_eq_of_short s (by rw [h1]; exact h2), h1]

theorem wordsAux_all_nonspace (s : List Char) :
    ∀ acc : List Char, (∀ c ∈ s, isSpaceChar c = false) →
      wordsAux s acc
        = if s.isEmpty && acc.isEmpty then [] else [acc.reverse ++ s] := by
  induction s with
  | nil =>
    intro acc _
    rw [wordsAux]
    simp only [List.isEmpty_nil, Bool.true_and, List.append_nil]
  | cons c rest ih =>
    intro acc h
    have hc : isSpaceChar c = false := h c (List.mem_cons_self c rest)
    have hrest : ∀ x ∈ rest, isSpaceChar x = false :=
      fun x hx => h x (List.mem_cons_of_mem c hx)
    rw [wordsAux, if_neg (by rw [hc]; exact Bool.false_ne_true),
      ih (c :: acc) hrest]
    simp [List.append_assoc]

theorem normalizeWs_of_all_nonspace (s : List Char)
    (h : ∀ c ∈ s, isSpaceChar c = false) : normalizeWs s = s := by
  rw [normalizeWs, splitWords, wordsAux_all_nonspace s [] h]
  cases s with
  | nil => rfl
  | cons c rest => simp [joinWords]

theorem summarize_truncates (s : List Char) (h150 : s.length = 150)
    (hns : ∀ c ∈ s, isSpaceChar c = false) :
    (summarize s).length = 103 ∧ (summarize s).drop 100 = "...".toList := by
  have hn : normalizeWs s = s := normalizeWs_of_all_nonspace s hns
  have hgt : (normalizeWs s).length > 100 := by rw [hn]; omega
  have hs : summarize s = s.take 100 ++ "...".toList := by
    simp only [summarize]
    rw [if_pos hgt, hn]
  constructor
  · rw [hs, List.length_append, List.length_take]
    have h3 : ("...".toList).length = 3 := rfl
    rw [h3]
    omega
  · rw [hs, List.drop_left' (by rw [List.length_take]; omega)]

/-- C6: every emitted argument summary holds at most 103 characters;
when the normalised argument text of a candidate holds at most 100
characters the summary equals that normalised text exactly, so the
summary map fixes already normalised strings of at most 100 characters;
and a raw argument of 150 non whitespace characters gives a summary of
exactly 103 characters whose last three characters are the truncation
marker. -/
theorem args_summary_length_bounds :
    (∀ (text : List Char) (u : Usage), u ∈ find_toast_usages text →
        u.args.length ≤ 103) ∧
      (∀ (text : List Char) (m : ToastMatch), m ∈ findMatches text →
          (normalizeWs (extractArgs (text.drop m.argStart))).length ≤ 100 →
            (mkUsage text m).args.toList
              = normalizeWs (extractArgs (text.drop m.argStart))) ∧
      (∀ s : List Char, normalizeWs s = s → s.length ≤ 100 →
          summarize s = s) ∧
      (∀ s : List Char, s.length = 150 →
          (∀ c ∈ s, isSpaceChar c = false) →
            (summarize s).length = 103 ∧
              (summarize s).drop 100 = "...".toList) := by
  refine ⟨?_, ?_, ?_, ?_⟩
  · intro text u hu
    obtain ⟨m, hm, hmk⟩ := List.mem_map.mp hu
    rw [← hmk]
    exact summarize_length_le _
  · intro text m _ hle
    exact summarize_eq_of_short _ hle
  · intro s h1 h2
    exact summarize_fixed_of_normalized s h1 h2
  · intro s h1 h2
    exact summarize_truncates s h1 h2

theorem args_summary_length_bounds_witness :
    (⟨1, "default", "1"⟩ : Usage).args.length ≤ 103 :=
  args_summary_length_bounds.1 "toast(1)".toList ⟨1, "default", "1"⟩ (by decide)

/-- True when no two consecutive characters are both spaces. -/
def noDoubleSpace : List Char → Bool
  | [] => true
  | [_] => true
  | a :: b :: rest => !(a == ' ' && b == ' ') && noDoubleSpace (b :: rest)

/-- True when the first character, if any, is not whitespace. -/
def noLeadWs : List Char → Bool
  | [] => true
  | c :: _ => !isSpaceChar c

/-- True when the last character, if any, is not whitespace. -/
def noTrailWs (l : List Char) : Bool :=
  match l.getLast? with
  | none => true
  | some c => !isSpaceChar c

theorem noDoubleSpace_cons_cons (a b : Char) (l : List Char) :
    noDoubleSpace (a :: b :: l)
      = (!(a == ' ' && b == ' ') && noDoubleSpace (b :: l)) := rfl

theorem ne_space_of_nonspace (c : Char) (h : isSpaceChar c = false) :
    ¬ c = ' ' := by
  intro hc
  subst hc
  simp [isSpaceChar] at h

theorem noDoubleSpace_cons_of_ne (c : Char) (l : List Char) (hc : ¬ c = ' ') :
    noDoubleSpace (c :: l) = noDoubleSpace l := by
  cases l with
  | nil => rfl
  | cons b t =>
    rw [noDoubleSpace_cons_cons, beq_false_of_ne hc]
    simp

theorem noDoubleSpace_append_all_nonspace (w l : List Char)
    (hw : ∀ c ∈ w, isSpaceChar c = false) :
    noDoubleSpace (w ++ l) = noDoubleSpace l := by
  induction w with
  | nil => rfl
  | cons c w ih =>
    have hc : ¬ c = ' ' := ne_space_of_nonspace c (hw c (List.mem_cons_self _ _))
    rw [List.cons_append, noDoubleSpace_cons_of_ne c _ hc,
      ih (fun x hx => hw x (List.mem_cons_of_mem _ hx))]

theorem noDoubleSpace_take (l : List Char) :
    noDoubleSpace l = true → ∀ k : Nat, noDoubleSpace (l.take k) = true := by
  induction l with
  | nil => intro _ k; rw [List.take_nil]; rfl
  | cons a t ih =>
    intro h k
    cases k with
    | zero => rfl
    | succ k =>
      rw [List.take_succ_cons]
      cases t with
      | nil => rw [List.take_nil]; rfl
      | cons b t2 =>
        cases k with
        | zero => rw [List.take_zero]; rfl
        | succ k2 =>
          rw [List.take_succ_cons, noDoubleSpace_cons_cons]
          rw [noDoubleSpace_cons_cons] at h
          simp only [Bool.and_eq_true] at h ⊢
          refine ⟨h.1, ?_⟩
          have h2 := ih h.2 (k2 + 1)
          rwa [List.take_succ_cons] at h2

theorem noDoubleSpace_append (xs ys : List Char)
    (hx : noDoubleSpace xs = true) (hy : noDoubleSpace ys = true)
    (hhead : ∀ c, ys.head? = some c → ¬ c = ' ') :
    noDoubleSpace (xs ++ ys) = true := by
  induction xs with
  | nil => simpa using hy
  | cons a t ih =>
    cases t with
    | nil =>
      cases ys with
      | nil => simpa using hx
      | cons d ys2 =>
        have hd : ¬ d = ' ' := hhead d rfl
        rw [List.singleton_append, noDoubleSpace_cons_cons, beq_false_of_ne hd]
        simp [hy]
    | cons b t2 =>
      rw [noDoubleSpace_cons_cons] at hx
      simp only [Bool.and_eq_true] at hx
      have h2 := ih hx.2
      rw [List.cons_append] at h2
      rw [List.cons_append, List.cons_append, noDoubleSpace_cons_cons]
      simp only [Bool.and_eq_true]
      exact ⟨hx.1, h2⟩

theorem wordsAux_words_good (s : List Char) :
    ∀ acc : List Char, (∀ c ∈ acc, isSpaceChar c = false) →
      ∀ w ∈ wordsAux s acc, w ≠ [] ∧ ∀ c ∈ w, isSpaceChar c = false := by
  induction s with
  | nil =>
    intro acc hacc w hw
    rw [wordsAux] at hw
    by_cases he : acc.isEmpty
    · rw [if_pos he] at hw
      simp at hw
    · rw [if_neg he] at hw
      simp only [List.mem_singleton] at hw
      subst hw
      refine ⟨fun h0 => he ?_, fun c hc => hacc c (List.mem_reverse.mp hc)⟩
      rw [List.reverse_eq_nil_iff.mp h0]
      rfl
  | cons c rest ih =>
    intro acc hacc w hw
    rw [wordsAux] at hw
    by_cases hc : isSpaceChar c = true
    · rw [if_pos hc] at hw
      by_cases he : acc.isEmpty
      · rw [if_pos he] at hw
        exact ih [] (by intro x hx; simp at hx) w hw
      · rw [if_neg he] at hw
        rcases List.mem_cons.mp hw with h | h
        · subst h
          refine ⟨fun h0 => he ?_, fun x hx => hacc x (List.mem_reverse.mp hx)⟩
          rw [List.reverse_eq_nil_iff.mp h0]
          rfl
        · exact ih [] (by intro x hx; simp at hx) w h
    · rw [if_neg hc] at hw
      refine ih (c :: acc) ?_ w hw
      intro x hx
      rcases List.mem_cons.mp hx with h | h
      · subst h
        simp only [Bool.not_eq_true] at hc
        exact hc
      · exact hacc x h

theorem splitWords_words_good (s : List Char) :
    ∀ w ∈ splitWords s, w ≠ [] ∧ ∀ c ∈ w, isSpaceChar c = false :=
  wordsAux_words_good s [] (by intro x hx; simp at hx)

theorem joinWords_cons_cons (w w2 : List Char) (ws : List (List Char)) :
    joinWords (w :: w2 :: ws) = w ++ ' ' :: joinWords (w2 :: ws) := rfl

theorem joinWords_ne_nil (w : List Char) (ws : List (List Char)) (hw : w ≠ []) :
    joinWords (w :: ws) ≠ [] := by
  cases ws with
  | nil => simpa [joinWords] using hw
  | cons w2 ws2 =>
    rw [joinWords_cons_cons]
    intro h
    exact hw (List.append_eq_nil.mp h).1

theorem joinWords_mem (ws : List (List Char))
    (hws : ∀ w ∈ ws, ∀ c ∈ w, isSpaceChar c = false) :
    ∀ c ∈ joinWords ws, c = ' ' ∨ isSpaceChar c = false := by
  induction ws with
  | nil => intro c hc; simp [joinWords] at hc
  | cons w ws ih =>
    intro c hc
    cases ws with
    | nil =>
      rw [joinWords] at hc
      exact Or.inr (hws w (List.mem_cons_self _ _) c hc)
    | cons w2 ws2 =>
      rw [joinWords_cons_cons] at hc
      rcases List.mem_append.mp hc with h | h
      · exact Or.inr (hws w (List.mem_cons_self _ _) c h)
      · rcases List.mem_cons.mp h with h | h
        · exact Or.inl h
        · exact ih (fun x hx => hws x (List.mem_cons_of_mem _ hx)) c h

theorem joinWords_head_nonspace (ws : List (List Char))
    (hws : ∀ w ∈ ws, w ≠ [] ∧ ∀ c ∈ w, isSpaceChar c = false) :
    noLeadWs (joinWords ws) = true := by
  cases ws with
  | nil => rfl
  | cons w ws2 =>
    obtain ⟨hne, hns⟩ := hws w (List.mem_cons_self _ _)
    cases w with
    | nil => exact absurd rfl hne
    | cons c t =>
      have hc : isSpaceChar c = false := hns c (List.mem_cons_self _ _)
      cases ws2 with
      | nil => simp [joinWords, noLeadWs, hc]
      | cons w2 ws3 => simp [joinWords, noLeadWs, hc]

theorem joinWords_noDoubleSpace (ws : List (List Char))
    (hws : ∀ w ∈ ws, w ≠ [] ∧ ∀ c ∈ w, isSpaceChar c = false) :
    noDoubleSpace (joinWords ws) = true := by
  induction ws with
  | nil => rfl
  | cons w ws ih =>
    obtain ⟨hne, hns⟩ := hws w (List.mem_cons_self _ _)
    have hws2 : ∀ x ∈ ws, x ≠ [] ∧ ∀ c ∈ x, isSpaceChar c = false :=
      fun x hx => hws x (List.mem_cons_of_mem _ hx)
    cases ws with
    | nil =>
      have h0 := noDoubleSpace_append_all_nonspace w [] hns
      rw [List.append_nil] at h0
      rw [joinWords, h0]
      rfl
    | cons w2 ws3 =>
      rw [joinWords_cons_cons, noDoubleSpace_append_all_nonspace w _ hns]
      have hj : noDoubleSpace (joinWords (w2 :: ws3)) = true := ih hws2
      have hlead : noLeadWs (joinWords (w2 :: ws3)) = true :=
        joinWords_head_nonspace _ hws2
      cases hjw : joinWords (w2 :: ws3) with
      | nil => rfl
      | cons d t =>
        rw [hjw] at hj hlead
        rw [noDoubleSpace_cons_cons]
        have hd : isSpaceChar d = false := by simpa [noLeadWs] using hlead
        rw [beq_false_of_ne (ne_space_of_nonspace d hd)]
        simp [hj]

theorem mem_of_getLast?_eq_some {l : List Char} {c : Char}
    (h : l.getLast? = some c) : c ∈ l := by
  obtain ⟨h1, h2⟩ := List.mem_getLast?_eq_getLast (Option.mem_def.mpr h)
  rw [h2]
  exact List.getLast_mem h1

theorem joinWords_getLast_nonspace (ws : List (List Char))
    (hws : ∀ w ∈ ws, w ≠ [] ∧ ∀ c ∈ w, isSpaceChar c = false) :
    noTrailWs (joinWords ws) = true := by
  induction ws with
  | nil => rfl
  | cons w ws ih =>
    obtain ⟨hne, hns⟩ := hws w (List.mem_cons_self _ _)
    have hws2 : ∀ x ∈ ws, x ≠ [] ∧ ∀ c ∈ x, isSpaceChar c = false :=
      fun x hx => hws x (List.mem_cons_of_mem _ hx)
    cases ws with
    | nil =>
      rw [joinWords, noTrailWs]
      cases hg : w.getLast? with
      | none => rfl
      | some c =>
        have hc : isSpaceChar c = false := hns c (mem_of_getLast?_eq_some hg)
        show (!isSpaceChar c) = true
        rw [hc]
        rfl
    | cons w2 ws3 =>
      rw [joinWords_cons_cons, noTrailWs,
        List.getLast?_append_of_ne_nil w (List.cons_ne_nil _ _)]
      have hj := ih hws2
      cases hJ : joinWords (w2 :: ws3) with
      | nil =>
        exact absurd hJ (joinWords_ne_nil w2 ws3
          (hws2 w2 (List.mem_cons_self _ _)).1)
      | cons d t =>
        rw [List.getLast?_cons_cons]
        rw [noTrailWs, hJ] at hj
        exact hj

theorem normalizeWs_good (s : List Char) :
    noDoubleSpace (normalizeWs s) = true ∧ noLeadWs (normalizeWs s) = true ∧
      noTrailWs (normalizeWs s) = true ∧ '\n' ∉ normalizeWs s := by
  have hg := splitWords_words_good s
  refine ⟨joinWords_noDoubleSpace _ hg, joinWords_head_nonspace _ hg,
    joinWords_getLast_nonspace _ hg, ?_⟩
  intro hmem
  rcases joinWords_mem _ (fun w hw => (hg w hw).2) '\n' hmem with h | h
  · exact absurd h (by decide)
  · exact absurd h (by decide)

theorem dots_head_ne_space (c : Char) (hc : ("...".toList).head? = some c) :
    ¬ c = ' ' := by
  have h3 : ("...".toList).head? = some '.' := rfl
  rw [h3] at hc
  obtain rfl : '.' = c := Option.some.inj hc
  decide

theorem noLeadWs_append_left (xs ys : List Char) (hx : noLeadWs xs = true)
    (hne : xs ≠ []) : noLeadWs (xs ++ ys) = true := by
  cases xs with
  | nil => exact absurd rfl hne
  | cons c t => simpa [noLeadWs] using hx

theorem noLeadWs_take (l : List Char) (k : Nat) (h : noLeadWs l = true) :
    noLeadWs (l.take k) = true := by
  cases l with
  | nil => rw [List.take_nil]; rfl
  | cons c t =>
    cases k with
    | zero => rfl
    | succ k => simpa [noLeadWs, List.take_succ_cons] using h

theorem noTrailWs_append_dots (xs : List Char) :
    noTrailWs (xs ++ "...".toList) = true := by
  rw [noTrailWs, List.getLast?_append_of_ne_nil xs (by decide)]
  rfl

theorem summarize_props (s : List Char) :
    '\n' ∉ summarize s ∧ noDoubleSpace (summarize s) = true ∧
      noLeadWs (summarize s) = true ∧ noTrailWs (summarize s) = true := by
  obtain ⟨hnds, hlead, htrail, hnl⟩ := normalizeWs_good s
  simp only [summarize]
  by_cases h : (normalizeWs s).length > 100
  · rw [if_pos h]
    have htk : (normalizeWs s).take 100 ≠ [] := by
      intro h0
      have hl := congrArg List.length h0
      rw [List.length_take] at hl
      simp only [List.length_nil] at hl
      omega
    refine ⟨?_, ?_, ?_, noTrailWs_append_dots _⟩
    · intro hmem
      rcases List.mem_append.mp hmem with h1 | h1
      · exact hnl ((List.take_subset _ _) h1)
      · exact absurd h1 (by decide)
    · exact noDoubleSpace_append _ _ (noDoubleSpace_take _ hnds 100)
        (by decide) dots_head_ne_space
    · exact noLeadWs_append_left _ _ (noLeadWs_take _ 100 hlead) htk
  · rw [if_neg h]
    exact ⟨hnl, hnds, hlead, htrail⟩

/-- C7: every emitted argument summary holds no newline character, no
run of two or more consecutive space characters, and no leading or
trailing whitespace. -/
theorem args_summary_whitespace (text : List Char) (u : Usage)
    (hu : u ∈ find_toast_usages text) :
    '\n' ∉ u.args.toList ∧ noDoubleSpace u.args.toList = true ∧
      noLeadWs u.args.toList = true ∧ noTrailWs u.args.toList = true := by
  obtain ⟨m, hm, hmk⟩ := List.mem_map.mp hu
  rw [← hmk]
  exact summarize_props _

theorem args_summary_whitespace_witness :
    '\n' ∉ (⟨1, "default", "1"⟩ : Usage).args.toList ∧
      noDoubleSpace (⟨1, "default", "1"⟩ : Usage).args.toList = true ∧
      noLeadWs (⟨1, "default", "1"⟩ : Usage).args.toList = true ∧
      noTrailWs (⟨1, "default", "1"⟩ : Usage).args.toList = true :=
  args_summary_whitespace "toast(1)".toList ⟨1, "default", "1"⟩ (by decide)


end FindToasts
